import Mathlib

/-!
Shallow embedding of `packages/synthetics-sdk-broken-links/src/link_utils.ts`.

JS/TS values are modelled as follows:
* `number`-valued status codes and limits are `Int` (JS integers in the ranges
  the code manipulates); a possibly-`undefined` number is `Option Int`.
* JS arrays are Lean lists; `Array.prototype.slice(0, e)` (including its
  negative-end clamping) is `jsSliceTo`.
* `Array.prototype.sort(() => Math.random() - 0.5)` draws one fresh uniform
  number per comparator call; only the sign of `r - 0.5` matters, a fair coin.
  ECMA-262 leaves the algorithm implementation-defined for an inconsistent
  comparator, so the model fixes a concrete comparison sort (insertion sort)
  driven by an explicit stream of coin flips (`List Bool`): bit `true` means
  the comparator returned a negative number (keep the inserted element in
  front of the compared one).
* The mutable `links` array of `shuffleAndTruncate` is additionally modelled
  with an explicit heap of arrays (`Heap`) to state the no-mutation claim.
-/

namespace LinkUtils

/-- `LinkIntermediate` from link_utils.ts: target URL, anchor text, HTML
element. -/
structure LinkIntermediate where
  target_url : String
  anchor_text : String
  html_element : String
  deriving DecidableEq, Repr

/-- `BrokenLinksResultV1_BrokenLinkCheckerOptions_LinkOrder` from the
synthetics-sdk-api protobufs: the orderings the checker recognises, plus the
catch-all values of the generated enum. -/
inductive LinkOrder where
  | LINK_ORDER_UNSPECIFIED
  | SEQUENTIAL
  | RANDOM
  | UNRECOGNIZED
  deriving DecidableEq, Repr

/-- One `Math.random() - 0.5` comparator call: consume the next coin flip,
defaulting to `false` (non-negative comparator result) if the modelled stream
is exhausted. -/
def nextBit : List Bool → Bool × List Bool
  | [] => (false, [])
  | b :: bs => (b, bs)

/-- Insert `x` into the already-sorted part; each comparison against a resident
element consumes one coin flip. Bit `true` = the random comparator said `x`
goes before the element it was compared with. Returns the new list and the
unconsumed flips. -/
def insertRand (x : α) : List α → List Bool → List α × List Bool
  | [], bits => ([x], bits)
  | y :: ys, bits =>
    let (b, bs) := nextBit bits
    if b then (x :: y :: ys, bs)
    else
      let (zs, bs2) := insertRand x ys bs
      (y :: zs, bs2)

/-- Insertion sort of `todo` onto the sorted accumulator `acc`, threading the
coin-flip stream. -/
def jsRandomSortGo : List Bool → List α → List α → List α
  | _, acc, [] => acc
  | bits, acc, x :: xs =>
    let (acc2, bits2) := insertRand x acc bits
    jsRandomSortGo bits2 acc2 xs

/-- Model of `array.sort(() => Math.random() - 0.5)` (the value the sorted
array holds afterwards): a comparison sort whose every comparison is a fair
coin flip, here fed from the explicit stream `bits`. -/
def jsRandomSort (bits : List Bool) (l : List α) : List α :=
  jsRandomSortGo bits [] l

/-- JS `array.slice(0, e)` for a possibly negative `e`: a negative end counts
from the end of the array (`max (n + e) 0`), a non-negative end is clamped to
the length. -/
def jsSliceTo (l : List α) (e : Int) : List α :=
  let n : Int := l.length
  let e2 : Int := if e < 0 then n + e else min e n
  l.take e2.toNat

/-- `shuffleAndTruncate` from link_utils.ts (value level):
`[...links].sort(() => Math.random() - 0.5)` when `link_order` is `RANDOM`,
else `[...links]`; then `.slice(0, link_limit - 1)`. The coin flips of the
random comparator are passed in as `bits`. -/
def shuffleAndTruncate (bits : List Bool) (links : List LinkIntermediate)
    (link_limit : Int) (link_order : LinkOrder) : List LinkIntermediate :=
  let linksToFollow :=
    if link_order = LinkOrder.RANDOM then jsRandomSort bits links else links
  jsSliceTo linksToFollow (link_limit - 1)

/-- A heap of JS arrays of links, for the mutation claim: an array reference is
an index into the heap. -/
abbrev Heap : Type := List (List LinkIntermediate)

/-- Contents of the array at reference `r`. -/
def heapGet (h : Heap) (r : Nat) : List LinkIntermediate :=
  List.getD h r []

/-- Allocate a fresh array holding `v`; returns the new heap and the new
reference. -/
def heapAlloc (h : Heap) (v : List LinkIntermediate) : Heap × Nat :=
  (List.append h [v], List.length h)

/-- Overwrite (in place) the array at reference `r`. -/
def heapSet (h : Heap) (r : Nat) (v : List LinkIntermediate) : Heap :=
  List.set h r v

/-- `shuffleAndTruncate` with the caller's `links` array living on an explicit
heap. `[...links]` allocates a fresh array copying the contents; `.sort`
mutates, in place, only the array it is called on (the copy); `.slice` builds
a new value. Returns the heap after the call and the returned array's value. -/
def shuffleAndTruncateHeap (bits : List Bool) (h : Heap) (linksRef : Nat)
    (link_limit : Int) (link_order : LinkOrder) : Heap × List LinkIntermediate :=
  let (h1, copyRef) := heapAlloc h (heapGet h linksRef)
  let h2 :=
    if link_order = LinkOrder.RANDOM then
      heapSet h1 copyRef (jsRandomSort bits (heapGet h1 copyRef))
    else h1
  (h2, jsSliceTo (heapGet h2 copyRef) (link_limit - 1))

/-- `ResponseStatusCode_StatusClass` from the synthetics-sdk-api protobufs. -/
inductive StatusClassE where
  | STATUS_CLASS_UNSPECIFIED
  | STATUS_CLASS_1XX
  | STATUS_CLASS_2XX
  | STATUS_CLASS_3XX
  | STATUS_CLASS_4XX
  | STATUS_CLASS_5XX
  | STATUS_CLASS_ANY
  | UNRECOGNIZED
  deriving DecidableEq, Repr

/-- `ResponseStatusCode` from the synthetics-sdk-api protobufs: both fields are
optional (`status_value?: number`, `status_class?: ResponseStatusCode_StatusClass`). -/
structure ResponseStatusCode where
  status_value : Option Int
  status_class : Option StatusClassE
  deriving DecidableEq, Repr

/-- `checkStatusPassing` from link_utils.ts.
`typeof expected?.status_value === 'number'` is `status_value` being present;
the `switch` on `expected?.status_class` checks the five class bands and every
other value (including an absent class) falls to `default: return false`. -/
def checkStatusPassing (expected : ResponseStatusCode) (actual : Int) : Bool :=
  match expected.status_value with
  | some v => decide (actual = v)
  | none =>
    match expected.status_class with
    | some StatusClassE.STATUS_CLASS_1XX => decide (100 ≤ actual ∧ actual ≤ 199)
    | some StatusClassE.STATUS_CLASS_2XX => decide (200 ≤ actual ∧ actual ≤ 299)
    | some StatusClassE.STATUS_CLASS_3XX => decide (300 ≤ actual ∧ actual ≤ 399)
    | some StatusClassE.STATUS_CLASS_4XX => decide (400 ≤ actual ∧ actual ≤ 499)
    | some StatusClassE.STATUS_CLASS_5XX => decide (500 ≤ actual ∧ actual ≤ 599)
    | _ => false

/-- Shape of a non-null JS value of the union `HTTPResponse | Error | null`:
whether it is an `Error` instance, and which property keys the `in` operator
finds on it (own or inherited). Every non-null member of the union is a JS
object, so `typeof response === 'object'` holds for all of them. -/
structure JsObjectShape where
  is_error : Bool
  fields : List String
  deriving DecidableEq, Repr

/-- `isHTTPResponse` from link_utils.ts:
`response !== null && typeof response === 'object' && 'status' in response`.
`none` models `null`. -/
def isHTTPResponse (response : Option JsObjectShape) : Bool :=
  match response with
  | none => false
  | some o => List.contains o.fields "status"

/-- `String.prototype.startsWith`-style check, first argument is the needle. -/
def jsStartsWith : List Char → List Char → Bool
  | [], _ => true
  | _ :: _, [] => false
  | a :: as, b :: bs => a == b && jsStartsWith as bs

/-- JS `haystack.includes(needle)`: does `needle` occur contiguously inside
`haystack`? -/
def jsIncludes (haystack needle : List Char) : Bool :=
  match haystack with
  | [] => List.isEmpty needle
  | _ :: t => jsStartsWith needle haystack || jsIncludes t needle

/-- `target_url.substring(0, target_url.indexOf(ofChar))` for a character that
occurs in the string: the part strictly before its first occurrence. -/
def stripFragment (url : List Char) : List Char :=
  List.takeWhile (fun c => c ≠ '#') url

/-- `shouldGoToBlankPage` from link_utils.ts:
`target_url.includes('#') && current_url.includes(target_url.substring(0, target_url.indexOf('#')))`.
URLs are character lists. -/
def shouldGoToBlankPage (current_url target_url : List Char) : Bool :=
  List.contains target_url '#' && jsIncludes current_url (stripFragment target_url)

/-- `BrokenLinksResultV1_SyntheticLinkResult` restricted to the fields
link_utils.ts reads: `is_origin`, `link_passed`, the optional numeric
`status_code`, and the link's URL as identity payload. -/
structure SyntheticLinkResult where
  is_origin : Bool
  link_passed : Bool
  status_code : Option Int
  link_url : String
  deriving DecidableEq, Repr

/-- `BrokenLinksResultV1` restricted to the fields `parseFollowedLinks`
populates. The TS counters are optional numbers initialised to `0` and bumped
with `(x ?? 0) + 1`, so they are always-present naturals here. The initial
`origin_link_result` placeholder `{} as BrokenLinksResultV1_SyntheticLinkResult`
(an empty object that is not a real link result) is modelled as `none`. -/
structure BrokenLinksResultV1 where
  link_count : Nat
  passing_link_count : Nat
  failing_link_count : Nat
  unreachable_count : Nat
  status_2xx_count : Nat
  status_3xx_count : Nat
  status_4xx_count : Nat
  status_5xx_count : Nat
  origin_link_result : Option SyntheticLinkResult
  followed_link_results : List SyntheticLinkResult
  deriving DecidableEq, Repr

/-- The accumulator `broken_links_result` as initialised at the top of
`parseFollowedLinks`. -/
def initResult : BrokenLinksResultV1 :=
  { link_count := 0, passing_link_count := 0, failing_link_count := 0
    unreachable_count := 0, status_2xx_count := 0, status_3xx_count := 0
    status_4xx_count := 0, status_5xx_count := 0
    origin_link_result := none, followed_link_results := [] }

/-- One iteration of the `for (const link of followed_links)` loop of
`parseFollowedLinks`. The `switch (Math.floor(link.status_code! / 100))` uses
JS float flooring, i.e. `Int.fdiv` on integer codes; an absent `status_code`
makes the scrutinee `NaN`, which matches no case and falls to `default`. -/
def parseLink (acc : BrokenLinksResultV1) (link : SyntheticLinkResult) :
    BrokenLinksResultV1 :=
  let acc :=
    if link.is_origin then { acc with origin_link_result := some link }
    else { acc with
           followed_link_results := acc.followed_link_results ++ [link] }
  let acc := { acc with link_count := acc.link_count + 1 }
  let acc :=
    if link.link_passed then
      { acc with passing_link_count := acc.passing_link_count + 1 }
    else
      { acc with failing_link_count := acc.failing_link_count + 1 }
  match link.status_code with
  | none => { acc with unreachable_count := acc.unreachable_count + 1 }
  | some c =>
    let d := Int.fdiv c 100
    if d = 2 then { acc with status_2xx_count := acc.status_2xx_count + 1 }
    else if d = 3 then { acc with status_3xx_count := acc.status_3xx_count + 1 }
    else if d = 4 then { acc with status_4xx_count := acc.status_4xx_count + 1 }
    else if d = 5 then { acc with status_5xx_count := acc.status_5xx_count + 1 }
    else { acc with unreachable_count := acc.unreachable_count + 1 }

/-- `parseFollowedLinks` from link_utils.ts: fold the loop body over the input
starting from the freshly initialised accumulator. -/
def parseFollowedLinks (followed_links : List SyntheticLinkResult) :
    BrokenLinksResultV1 :=
  List.foldl parseLink initResult followed_links

/-! Reference definitions written from the spec's words, to be compared with
the embedded code. -/

/-- Reference StatusEvaluator, following the spec: class number of a
recognised status class, `none` for anything unrecognised or unset. -/
def classNumber : Option StatusClassE → Option Int
  | some StatusClassE.STATUS_CLASS_1XX => some 1
  | some StatusClassE.STATUS_CLASS_2XX => some 2
  | some StatusClassE.STATUS_CLASS_3XX => some 3
  | some StatusClassE.STATUS_CLASS_4XX => some 4
  | some StatusClassE.STATUS_CLASS_5XX => some 5
  | _ => none

/-- Reference StatusEvaluator, following the spec: an exact numeric value
takes precedence and passes iff `actual` equals it; else a recognised class
`c` passes iff `actual` lies in `[100*c, 100*c+99]`; anything else fails. -/
def specIsPassing (expected : ResponseStatusCode) (actual : Int) : Bool :=
  match expected.status_value with
  | some v => decide (actual = v)
  | none =>
    match classNumber expected.status_class with
    | some c => decide (100 * c ≤ actual ∧ actual ≤ 100 * c + 99)
    | none => false

/-- Two URLs differ only by a fragment identifier on the same base URL when
the parts before the first fragment marker coincide (spec-side predicate for
the blank-page claim). -/
def sameBaseUrl (u v : List Char) : Prop :=
  stripFragment u = stripFragment v

instance sameBaseUrlDec (u v : List Char) : Decidable (sameBaseUrl u v) :=
  inferInstanceAs (Decidable (stripFragment u = stripFragment v))

/-- Spec-shaped reading of the implemented blank-page check: the target splits
as a fragment-free base followed by a fragment, and that base occurs
contiguously somewhere inside the current URL. -/
def blankPageCondition (current target : List Char) : Prop :=
  ∃ base rest, target = base ++ '#' :: rest ∧ '#' ∉ base ∧
    ∃ l r, current = l ++ base ++ r

/-- The five aggregation buckets a link can be counted into. -/
inductive StatusBucket where
  | b2xx
  | b3xx
  | b4xx
  | b5xx
  | unreachable
  deriving DecidableEq, Repr

/-- Reference bucket choice, following the spec: the class counter is chosen
by integer (floor) division of the status code by 100; an absent code, and any
code whose hundreds digit is not 2–5, goes to unreachable. -/
def specBucket : Option Int → StatusBucket
  | none => StatusBucket.unreachable
  | some c =>
    if Int.fdiv c 100 = 2 then StatusBucket.b2xx
    else if Int.fdiv c 100 = 3 then StatusBucket.b3xx
    else if Int.fdiv c 100 = 4 then StatusBucket.b4xx
    else if Int.fdiv c 100 = 5 then StatusBucket.b5xx
    else StatusBucket.unreachable

/-- The five per-class counters of a report, as one tuple. -/
def classCounters (r : BrokenLinksResultV1) : Nat × Nat × Nat × Nat × Nat :=
  (r.status_2xx_count, r.status_3xx_count, r.status_4xx_count,
   r.status_5xx_count, r.unreachable_count)

/-- Increment exactly the counter of the given bucket, leaving the other four
untouched. -/
def bumpBucket : StatusBucket → Nat × Nat × Nat × Nat × Nat →
    Nat × Nat × Nat × Nat × Nat
  | StatusBucket.b2xx, (a, b, c, d, e) => (a + 1, b, c, d, e)
  | StatusBucket.b3xx, (a, b, c, d, e) => (a, b + 1, c, d, e)
  | StatusBucket.b4xx, (a, b, c, d, e) => (a, b, c + 1, d, e)
  | StatusBucket.b5xx, (a, b, c, d, e) => (a, b, c, d + 1, e)
  | StatusBucket.unreachable, (a, b, c, d, e) => (a, b, c, d, e + 1)

/-- The last element of the input with `is_origin` set, if any: the value the
aggregation loop's repeated overwriting leaves in `origin_link_result`. -/
def lastOrigin (links : List SyntheticLinkResult) : Option SyntheticLinkResult :=
  List.find? (fun l => l.is_origin) links.reverse

/-- All coin-flip sequences of length `n`, each equally likely when every flip
is fair. -/
def allBitLists : Nat → List (List Bool)
  | 0 => [[]]
  | n + 1 =>
    List.map (List.cons true) (allBitLists n)
      ++ List.map (List.cons false) (allBitLists n)

/-- Concrete links used to instantiate universally quantified theorems. -/
def lA : LinkIntermediate :=
  { target_url := "https://example.com/0", anchor_text := "zero", html_element := "a" }

/-- Second concrete link. -/
def lB : LinkIntermediate :=
  { target_url := "https://example.com/1", anchor_text := "one", html_element := "a" }

/-- Third concrete link. -/
def lC : LinkIntermediate :=
  { target_url := "https://example.com/2", anchor_text := "two", html_element := "img" }

/-! ### Helper lemmas -/

theorem insertRand_fst_perm (x : α) (ys : List α) (bits : List Bool) :
    ((insertRand x ys bits).1).Perm (x :: ys) := by
  induction ys generalizing bits with
  | nil => simp [insertRand]
  | cons y ys ih =>
    cases bits with
    | nil =>
      rcases h : insertRand x ys [] with ⟨zs, bs2⟩
      have hzs : zs.Perm (x :: ys) := by
        have := ih []
        rwa [h] at this
      simp only [insertRand, nextBit, Bool.false_eq_true, if_false, h]
      exact (hzs.cons y).trans (List.Perm.swap x y ys)
    | cons b bs =>
      cases b with
      | true => simp [insertRand, nextBit]
      | false =>
        rcases h : insertRand x ys bs with ⟨zs, bs2⟩
        have hzs : zs.Perm (x :: ys) := by
          have := ih bs
          rwa [h] at this
        simp only [insertRand, nextBit, Bool.false_eq_true, if_false, h]
        exact (hzs.cons y).trans (List.Perm.swap x y ys)

theorem jsRandomSortGo_perm (todo acc : List α) (bits : List Bool) :
    (jsRandomSortGo bits acc todo).Perm (acc ++ todo) := by
  induction todo generalizing acc bits with
  | nil => simp [jsRandomSortGo]
  | cons x xs ih =>
    rcases h : insertRand x acc bits with ⟨acc2, bits2⟩
    have hp : acc2.Perm (x :: acc) := by
      have := insertRand_fst_perm x acc bits
      rwa [h] at this
    simp only [jsRandomSortGo, h]
    exact (ih acc2 bits2).trans ((hp.append_right xs).trans List.perm_middle.symm)

theorem jsRandomSort_perm (bits : List Bool) (l : List α) :
    (jsRandomSort bits l).Perm l := by
  simpa using jsRandomSortGo_perm l [] bits

theorem jsRandomSort_length (bits : List Bool) (l : List α) :
    (jsRandomSort bits l).length = l.length :=
  (jsRandomSort_perm bits l).length_eq

/-! ### Claim theorems -/

/-- Claim C7: for every status expectation and every integer actual status
code, `checkStatusPassing` equals the reference definition: an exact numeric
value takes precedence (even over a simultaneously set class) and passes iff
`actual` equals it; otherwise a recognised status class `c ∈ {1,2,3,4,5}`
passes iff `100*c ≤ actual ≤ 100*c + 99`; otherwise the result is `false`. -/
theorem checkStatusPassing_eq_spec (expected : ResponseStatusCode) (actual : Int) :
    checkStatusPassing expected actual = specIsPassing expected actual := by
  obtain ⟨v, cl⟩ := expected
  cases v with
  | some v => rfl
  | none =>
    cases cl with
    | none => rfl
    | some c =>
      cases c <;>
        simp only [checkStatusPassing, specIsPassing, classNumber] <;> rfl

/-- Claim C10: `isHTTPResponse` returns `true` exactly on non-null objects
possessing a `status` property; an `Error`-shaped object carrying a `status`
field is therefore classified as an HTTP response, and `null` never is. -/
theorem isHTTPResponse_status_field (response : Option JsObjectShape) :
    (isHTTPResponse response = true ↔
       ∃ o, response = some o ∧ "status" ∈ o.fields)
  ∧ isHTTPResponse none = false
  ∧ isHTTPResponse
      (some { is_error := true, fields := ["name", "message", "status"] }) = true
  ∧ isHTTPResponse (some { is_error := false, fields := [] }) = false := by
  refine ⟨?_, rfl, by decide, rfl⟩
  cases response with
  | none => simp [isHTTPResponse]
  | some o => simp [isHTTPResponse, List.contains]

theorem jsStartsWith_iff (needle hay : List Char) :
    jsStartsWith needle hay = true ↔ ∃ r, hay = needle ++ r := by
  induction needle generalizing hay with
  | nil => simp [jsStartsWith]
  | cons a as ih =>
    cases hay with
    | nil => simp [jsStartsWith]
    | cons b bs =>
      constructor
      · intro h
        simp only [jsStartsWith, Bool.and_eq_true, beq_iff_eq] at h
        obtain ⟨rfl, h2⟩ := h
        obtain ⟨r, rfl⟩ := (ih bs).1 h2
        exact ⟨r, rfl⟩
      · rintro ⟨r, hr⟩
        injection hr with h1 h2
        subst h1
        subst h2
        simp only [jsStartsWith, beq_self_eq_true, Bool.true_and]
        exact (ih (as ++ r)).2 ⟨r, rfl⟩

theorem jsIncludes_iff (hay needle : List Char) :
    jsIncludes hay needle = true ↔ ∃ l r, hay = l ++ needle ++ r := by
  induction hay with
  | nil =>
    simp only [jsIncludes, List.isEmpty_iff]
    constructor
    · rintro rfl
      exact ⟨[], [], rfl⟩
    · rintro ⟨l, r, hr⟩
      rcases List.append_eq_nil.mp hr.symm with ⟨h1, h2⟩
      exact (List.append_eq_nil.mp h1).2
  | cons c t ih =>
    simp only [jsIncludes, Bool.or_eq_true, jsStartsWith_iff, ih]
    constructor
    · rintro (⟨r, hr⟩ | ⟨l, r, hr⟩)
      · exact ⟨[], r, by simpa using hr⟩
      · exact ⟨c :: l, r, by simp [hr]⟩
    · rintro ⟨l, r, hr⟩
      cases l with
      | nil => exact Or.inl ⟨r, by simpa using hr⟩
      | cons x xs =>
        injection hr with h1 h2
        exact Or.inr ⟨xs, r, h2⟩

theorem stripFragment_decomp (t : List Char) (h : '#' ∈ t) :
    ∃ rest, t = stripFragment t ++ '#' :: rest ∧ '#' ∉ stripFragment t := by
  induction t with
  | nil => cases h
  | cons c t ih =>
    by_cases hc : c = '#'
    · subst hc
      exact ⟨t, by simp [stripFragment], by simp [stripFragment]⟩
    · have ht : '#' ∈ t := by
        rcases List.mem_cons.mp h with h1 | h1
        · exact absurd h1.symm hc
        · exact h1
      obtain ⟨rest, h1, h2⟩ := ih ht
      have hsf : stripFragment (c :: t) = c :: stripFragment t := by
        simp [stripFragment, hc]
      refine ⟨rest, ?_, ?_⟩
      · rw [hsf, List.cons_append, ← h1]
      · rw [hsf]
        simp [List.mem_cons, h2, Ne.symm hc]

theorem stripFragment_of_decomp (base rest : List Char) (hb : '#' ∉ base) :
    stripFragment (base ++ '#' :: rest) = base := by
  induction base with
  | nil => simp [stripFragment]
  | cons c bs ih =>
    have hc : ¬ (c = '#') := fun hcc => hb (by simp [hcc])
    have hbs : '#' ∉ bs := fun hm => hb (List.mem_cons_of_mem _ hm)
    have hstep : stripFragment ((c :: bs) ++ '#' :: rest)
        = c :: stripFragment (bs ++ '#' :: rest) := by
      simp [stripFragment, hc]
    rw [hstep, ih hbs]

/-- Claim C6 (amended): `shouldGoToBlankPage current target` is `true` exactly
when the target URL carries a fragment (splits as a fragment-free base,
a `#`, and a rest) and that base occurs contiguously somewhere inside the
current URL — a substring check, not equality of the two URLs' bases. The two
concrete scenarios of the claim behave as stated. -/
theorem shouldGoToBlankPage_substring_check :
    (∀ current target : List Char,
        shouldGoToBlankPage current target = true ↔
          blankPageCondition current target)
  ∧ shouldGoToBlankPage ("https://a/x#1".toList) ("https://a/x#2".toList) = true
  ∧ shouldGoToBlankPage ("https://a/x".toList) ("https://b/y".toList) = false := by
  refine ⟨?_, by decide, by decide⟩
  intro current target
  constructor
  · intro h
    simp only [shouldGoToBlankPage, Bool.and_eq_true] at h
    obtain ⟨h1, h2⟩ := h
    have hmem : '#' ∈ target := by simpa using h1
    obtain ⟨rest, hdec, hnm⟩ := stripFragment_decomp target hmem
    obtain ⟨l, r, hlr⟩ := (jsIncludes_iff current (stripFragment target)).1 h2
    exact ⟨stripFragment target, rest, hdec, hnm, l, r, hlr⟩
  · rintro ⟨base, rest, rfl, hnb, l, r, rfl⟩
    simp only [shouldGoToBlankPage, Bool.and_eq_true]
    refine ⟨by simp, ?_⟩
    rw [stripFragment_of_decomp base rest hnb]
    exact (jsIncludes_iff _ base).2 ⟨l, r, rfl⟩

/-- Claim C6 (counterexample): the implemented check is not equivalent to
"the two URLs differ only by a fragment identifier on the same base URL".
It answers `true` for current `https://a/xy` and target `https://a/x#1`
although their bases differ, and `false` for current `https://a/x#1` and
target `https://a/x` although those two URLs differ only by the fragment. -/
theorem shouldGoToBlankPage_not_fragment_only :
    shouldGoToBlankPage ("https://a/xy".toList) ("https://a/x#1".toList) = true
  ∧ ¬ sameBaseUrl ("https://a/xy".toList) ("https://a/x#1".toList)
  ∧ sameBaseUrl ("https://a/x#1".toList) ("https://a/x".toList)
  ∧ "https://a/x#1".toList ≠ "https://a/x".toList
  ∧ shouldGoToBlankPage ("https://a/x#1".toList) ("https://a/x".toList) = false := by
  decide

theorem listGetD_append_left {α : Type _} (l l2 : List α) (n : Nat) (d : α)
    (hn : n < l.length) : (l ++ l2).getD n d = l.getD n d := by
  induction l generalizing n with
  | nil => cases hn
  | cons a t ih =>
    cases n with
    | zero => rfl
    | succ m => exact ih m (Nat.lt_of_succ_lt_succ hn)

theorem listGetD_append_self {α : Type _} (l : List α) (v d : α) :
    (l ++ [v]).getD l.length d = v := by
  induction l with
  | nil => rfl
  | cons a t ih => exact ih

theorem listGetD_set_ne {α : Type _} (l : List α) (i j : Nat) (v d : α)
    (hij : i ≠ j) : (l.set i v).getD j d = l.getD j d := by
  induction l generalizing i j with
  | nil => rfl
  | cons a t ih =>
    cases i with
    | zero =>
      cases j with
      | zero => exact absurd rfl hij
      | succ m => rfl
    | succ n =>
      cases j with
      | zero => rfl
      | succ m => exact ih n m fun hh => hij (by rw [hh])

theorem listGetD_set_self {α : Type _} (l : List α) (i : Nat) (v d : α)
    (hi : i < l.length) : (l.set i v).getD i d = v := by
  induction l generalizing i with
  | nil => cases hi
  | cons a t ih =>
    cases i with
    | zero => rfl
    | succ n => exact ih n (Nat.lt_of_succ_lt_succ hi)

/-- Claim C1 (code evaluation at the failing input): the comparator-based
shuffle `[...links].sort(() => Math.random() - 0.5)` is positionally biased.
For a 3-link input and `link_limit = 4` (no truncation), over the 8 equally
likely fair-coin comparator sequences the third input link comes first in 4
of them (probability 1/2) while the first input link comes first in only 2
(probability 1/4); a uniform shuffle would put every link first with
probability 1/3. -/
theorem shuffleAndTruncate_random_biased :
    ((allBitLists 3).countP fun bits =>
        decide ((shuffleAndTruncate bits [lA, lB, lC] 4 LinkOrder.RANDOM).head?
          = some lC)) = 4
  ∧ ((allBitLists 3).countP fun bits =>
        decide ((shuffleAndTruncate bits [lA, lB, lC] 4 LinkOrder.RANDOM).head?
          = some lA)) = 2
  ∧ (allBitLists 3).length = 8 := by decide

/-- Claim C2 (counterexample): with two links and `link_limit = 0` the result
is not empty — JS `slice(0, -1)` keeps everything but the last element, so the
call returns the first of the two links. -/
theorem shuffleAndTruncate_limit_zero_not_empty :
    shuffleAndTruncate [] [lA, lB] 0 LinkOrder.SEQUENTIAL = [lA]
  ∧ shuffleAndTruncate [] [lA, lB] 0 LinkOrder.SEQUENTIAL ≠ [] := by decide

/-- Claim C2 (amended): for `limit ≤ 0` the result has
`max (length + limit - 1) 0` elements (the negative slice end counts from the
end of the array), so it is empty only when `limit ≤ 1 - length`; for
`limit > length` the whole (shuffled when `RANDOM`, otherwise unchanged)
input is returned. -/
theorem shuffleAndTruncate_limit_boundaries (bits : List Bool)
    (links : List LinkIntermediate) (limit : Int) (order : LinkOrder) :
    (limit ≤ 0 →
      shuffleAndTruncate bits links limit order
        = (if order = LinkOrder.RANDOM then jsRandomSort bits links
           else links).take (((links.length : Int) + limit - 1).toNat)
      ∧ (shuffleAndTruncate bits links limit order).length
        = ((links.length : Int) + limit - 1).toNat)
  ∧ ((links.length : Int) < limit →
      (shuffleAndTruncate bits links limit order).Perm links
      ∧ (order = LinkOrder.RANDOM →
          shuffleAndTruncate bits links limit order = jsRandomSort bits links)
      ∧ (order ≠ LinkOrder.RANDOM →
          shuffleAndTruncate bits links limit order = links)) := by
  have hred : shuffleAndTruncate bits links limit order
      = jsSliceTo (if order = LinkOrder.RANDOM then jsRandomSort bits links
                   else links) (limit - 1) := rfl
  by_cases ho : order = LinkOrder.RANDOM <;>
    rw [hred] <;>
    simp only [ho, if_pos, if_neg, ite_true, ite_false]
  · refine ⟨?_, ?_⟩
    · intro hle
      constructor
      · simp only [jsSliceTo]
        rw [if_pos (by omega)]
        refine List.take_eq_take.mpr ?_
        rw [jsRandomSort_length]
        omega
      · simp only [jsSliceTo]
        rw [if_pos (by omega), List.length_take, jsRandomSort_length]
        omega
    · intro hgt
      have hfull : jsSliceTo (jsRandomSort bits links) (limit - 1)
          = jsRandomSort bits links := by
        simp only [jsSliceTo]
        rw [if_neg (by omega), min_eq_right (by rw [jsRandomSort_length]; omega)]
        simp [jsRandomSort_length]
      rw [hfull]
      exact ⟨jsRandomSort_perm bits links, fun _ => rfl, fun hne => absurd rfl hne⟩
  · refine ⟨?_, ?_⟩
    · intro hle
      constructor
      · simp only [jsSliceTo]
        rw [if_pos (by omega)]
        exact List.take_eq_take.mpr (by omega)
      · simp only [jsSliceTo]
        rw [if_pos (by omega), List.length_take]
        omega
    · intro hgt
      have hfull : jsSliceTo links (limit - 1) = links := by
        simp only [jsSliceTo]
        rw [if_neg (by omega), min_eq_right (by omega)]
        simp
      rw [hfull]
      exact ⟨List.Perm.refl links, fun hx => hx.elim, fun _ => rfl⟩

/-- Claim C2 (witness): concrete instances of the amended boundary behaviour:
`limit = 0` on two links keeps `max(2 + 0 - 1, 0) = 1` element, and
`limit = 3 > 2` returns the whole input (unchanged when `SEQUENTIAL`, the
shuffled copy when `RANDOM`). -/
theorem shuffleAndTruncate_limit_boundaries_w :
    (shuffleAndTruncate [] [lA, lB] 0 LinkOrder.SEQUENTIAL).length
      = ((([lA, lB] : List LinkIntermediate).length : Int) + 0 - 1).toNat
  ∧ shuffleAndTruncate [] [lA, lB] 3 LinkOrder.SEQUENTIAL = [lA, lB]
  ∧ shuffleAndTruncate [true] [lA, lB] 3 LinkOrder.RANDOM
      = jsRandomSort [true] [lA, lB] :=
  ⟨((shuffleAndTruncate_limit_boundaries [] [lA, lB] 0
      LinkOrder.SEQUENTIAL).1 (by decide)).2,
   ((shuffleAndTruncate_limit_boundaries [] [lA, lB] 3
      LinkOrder.SEQUENTIAL).2 (by decide)).2.2 (by decide),
   ((shuffleAndTruncate_limit_boundaries [true] [lA, lB] 3
      LinkOrder.RANDOM).2 (by decide)).2.1 rfl⟩

/-- Claim C3: with order `SEQUENTIAL` and `limit ≥ 1` the result is the prefix
of the input of length `min (limit - 1) (length of input)`, in the original
order. -/
theorem shuffleAndTruncate_sequential_cut (bits : List Bool)
    (links : List LinkIntermediate) (limit : Int) (h : 1 ≤ limit) :
    shuffleAndTruncate bits links limit LinkOrder.SEQUENTIAL
      = links.take (limit - 1).toNat
  ∧ (shuffleAndTruncate bits links limit LinkOrder.SEQUENTIAL).length
      = min (limit - 1).toNat links.length := by
  have hred : shuffleAndTruncate bits links limit LinkOrder.SEQUENTIAL
      = jsSliceTo links (limit - 1) := rfl
  constructor
  · rw [hred]
    simp only [jsSliceTo]
    rw [if_neg (by omega)]
    refine List.take_eq_take.mpr ?_
    omega
  · rw [hred]
    simp only [jsSliceTo]
    rw [if_neg (by omega), List.length_take]
    omega

/-- Claim C3 (witness): `limit = 3` on three links returns the first two in
order. -/
theorem shuffleAndTruncate_sequential_cut_w :
    (1 : Int) ≤ 3
  ∧ shuffleAndTruncate [] [lA, lB, lC] 3 LinkOrder.SEQUENTIAL
      = List.take ((3 : Int) - 1).toNat [lA, lB, lC] :=
  ⟨by decide,
   (shuffleAndTruncate_sequential_cut [] [lA, lB, lC] 3 (by decide)).1⟩

/-- Claim C9: the call leaves the caller's `links` array untouched — `[...]`
copies it and only the copy is sorted in place — and the returned value is the
one the pure model computes from the array's (unchanged) contents. -/
theorem shuffleAndTruncateHeap_no_mutation (bits : List Bool) (h : Heap)
    (linksRef : Nat) (limit : Int) (order : LinkOrder)
    (hr : linksRef < h.length) :
    heapGet (shuffleAndTruncateHeap bits h linksRef limit order).1 linksRef
      = heapGet h linksRef
  ∧ (shuffleAndTruncateHeap bits h linksRef limit order).2
      = shuffleAndTruncate bits (heapGet h linksRef) limit order := by
  have hne : h.length ≠ linksRef := fun hh => absurd hh.symm (Nat.ne_of_lt hr)
  have hcopy : heapGet (h ++ [heapGet h linksRef]) h.length = heapGet h linksRef :=
    listGetD_append_self h (heapGet h linksRef) []
  have hold : heapGet (h ++ [heapGet h linksRef]) linksRef = heapGet h linksRef :=
    listGetD_append_left h [heapGet h linksRef] linksRef [] hr
  by_cases ho : order = LinkOrder.RANDOM
  · simp only [shuffleAndTruncateHeap, heapAlloc, heapSet, List.append_eq, ho,
      ite_true]
    constructor
    · show heapGet (List.set (h ++ [heapGet h linksRef]) h.length _) linksRef = _
      rw [show ∀ (l : Heap) (i j : Nat) v,
            heapGet (List.set l i v) j = (List.set l i v).getD j [] from
            fun _ _ _ _ => rfl]
      rw [listGetD_set_ne _ _ _ _ _ hne]
      exact hold
    · show jsSliceTo (heapGet (List.set (h ++ [heapGet h linksRef]) h.length
          (jsRandomSort bits (heapGet (h ++ [heapGet h linksRef]) h.length)))
          h.length) (limit - 1) = _
      rw [hcopy]
      have hset : heapGet (List.set (h ++ [heapGet h linksRef]) h.length
          (jsRandomSort bits (heapGet h linksRef))) h.length
          = jsRandomSort bits (heapGet h linksRef) := by
        refine listGetD_set_self _ _ _ _ ?_
        simp
      rw [hset]
      have hpure : shuffleAndTruncate bits (heapGet h linksRef) limit
            LinkOrder.RANDOM
          = jsSliceTo (jsRandomSort bits (heapGet h linksRef)) (limit - 1) := by
        simp [shuffleAndTruncate]
      rw [hpure]
  · simp only [shuffleAndTruncateHeap, heapAlloc, heapSet, List.append_eq, ho,
      ite_false]
    refine ⟨hold, ?_⟩
    rw [hcopy]
    simp [shuffleAndTruncate, ho]

/-- Claim C9 (witness): a concrete one-array heap is unchanged by a `RANDOM`
call on its single array. -/
theorem shuffleAndTruncateHeap_no_mutation_w :
    heapGet (shuffleAndTruncateHeap [true] [[lA, lB]] 0 2 LinkOrder.RANDOM).1 0
      = heapGet [[lA, lB]] 0 :=
  (shuffleAndTruncateHeap_no_mutation [true] [[lA, lB]] 0 2
    LinkOrder.RANDOM (by decide)).1

theorem parseLink_link_count (acc : BrokenLinksResultV1)
    (l : SyntheticLinkResult) :
    (parseLink acc l).link_count = acc.link_count + 1 := by
  rcases l with ⟨o, p, sc, u⟩
  cases o <;> cases p <;> rcases sc with _ | c <;>
    simp only [parseLink] <;> split_ifs <;> rfl

theorem parseLink_passing (acc : BrokenLinksResultV1) (l : SyntheticLinkResult) :
    (parseLink acc l).passing_link_count
      = acc.passing_link_count + (if l.link_passed then 1 else 0) := by
  rcases l with ⟨o, p, sc, u⟩
  cases o <;> cases p <;> rcases sc with _ | c <;>
    simp only [parseLink] <;> split_ifs <;> rfl

theorem parseLink_failing (acc : BrokenLinksResultV1) (l : SyntheticLinkResult) :
    (parseLink acc l).failing_link_count
      = acc.failing_link_count + (if l.link_passed then 0 else 1) := by
  rcases l with ⟨o, p, sc, u⟩
  cases o <;> cases p <;> rcases sc with _ | c <;>
    simp only [parseLink] <;> split_ifs <;> rfl

theorem parseLink_followed (acc : BrokenLinksResultV1) (l : SyntheticLinkResult) :
    (parseLink acc l).followed_link_results
      = acc.followed_link_results ++ (if l.is_origin then [] else [l]) := by
  rcases l with ⟨o, p, sc, u⟩
  cases o <;> cases p <;> rcases sc with _ | c <;>
    simp only [parseLink] <;> split_ifs <;> simp

theorem parseLink_origin (acc : BrokenLinksResultV1) (l : SyntheticLinkResult) :
    (parseLink acc l).origin_link_result
      = (if l.is_origin then some l else acc.origin_link_result) := by
  rcases l with ⟨o, p, sc, u⟩
  cases o <;> cases p <;> rcases sc with _ | c <;>
    simp only [parseLink] <;> split_ifs <;> rfl

theorem parseLink_classCounters (acc : BrokenLinksResultV1)
    (l : SyntheticLinkResult) :
    classCounters (parseLink acc l)
      = bumpBucket (specBucket l.status_code) (classCounters acc) := by
  rcases l with ⟨o, p, sc, u⟩
  cases o <;> cases p <;> rcases sc with _ | c <;>
    simp only [parseLink, classCounters, specBucket, bumpBucket] <;>
    split_ifs <;> rfl

theorem lastOrigin_cons (l : SyntheticLinkResult)
    (ls : List SyntheticLinkResult) :
    lastOrigin (l :: ls)
      = (match lastOrigin ls with
         | some x => some x
         | none => if l.is_origin then some l else none) := by
  simp only [lastOrigin, List.reverse_cons, List.find?_append]
  cases h : List.find? (fun x => x.is_origin) ls.reverse <;>
    cases hl : l.is_origin <;>
    simp [List.find?, hl]

theorem parse_foldl_spec (links : List SyntheticLinkResult)
    (acc : BrokenLinksResultV1) :
    (List.foldl parseLink acc links).link_count = acc.link_count + links.length
  ∧ (List.foldl parseLink acc links).passing_link_count
      = acc.passing_link_count + List.countP (fun l => l.link_passed) links
  ∧ (List.foldl parseLink acc links).failing_link_count
      = acc.failing_link_count + List.countP (fun l => !l.link_passed) links
  ∧ (List.foldl parseLink acc links).followed_link_results
      = acc.followed_link_results ++ List.filter (fun l => !l.is_origin) links
  ∧ (List.foldl parseLink acc links).origin_link_result
      = (match lastOrigin links with
         | some x => some x
         | none => acc.origin_link_result) := by
  induction links generalizing acc with
  | nil => simp [lastOrigin]
  | cons l ls ih =>
    obtain ⟨ih1, ih2, ih3, ih4, ih5⟩ := ih (parseLink acc l)
    refine ⟨?_, ?_, ?_, ?_, ?_⟩
    · rw [List.foldl_cons, ih1, parseLink_link_count, List.length_cons]
      omega
    · rw [List.foldl_cons, ih2, parseLink_passing, List.countP_cons]
      cases hp : l.link_passed <;> (simp [hp]; try omega)
    · rw [List.foldl_cons, ih3, parseLink_failing, List.countP_cons]
      cases hp : l.link_passed <;> (simp [hp]; try omega)
    · rw [List.foldl_cons, ih4, parseLink_followed, List.filter_cons]
      cases ho : l.is_origin <;> simp [ho]
    · rw [List.foldl_cons, ih5, parseLink_origin, lastOrigin_cons]
      cases h : lastOrigin ls <;> cases ho : l.is_origin <;> simp [h, ho]

/-- Claim C4: each processed link bumps exactly one of the five counters
(2xx, 3xx, 4xx, 5xx, unreachable) — never two, never none — and the bucket is
chosen by floor division of the status code by 100: hundreds digit 2–5 picks
the matching class counter (200, 301, 404, 503 hit the 2xx, 3xx, 4xx, 5xx
counters), while an absent code and every code outside 100–599 bump
`unreachable_count`. -/
theorem parseLink_bucket_classification (acc : BrokenLinksResultV1)
    (link : SyntheticLinkResult) :
    classCounters (parseLink acc link)
      = bumpBucket (specBucket link.status_code) (classCounters acc)
  ∧ specBucket none = StatusBucket.unreachable
  ∧ specBucket (some 200) = StatusBucket.b2xx
  ∧ specBucket (some 301) = StatusBucket.b3xx
  ∧ specBucket (some 404) = StatusBucket.b4xx
  ∧ specBucket (some 503) = StatusBucket.b5xx
  ∧ (∀ c : Int, c < 100 ∨ 599 < c →
      specBucket (some c) = StatusBucket.unreachable) := by
  refine ⟨parseLink_classCounters acc link, rfl, by decide, by decide,
    by decide, by decide, ?_⟩
  intro c hc
  have hdiv : Int.fdiv c 100 = c / 100 := Int.fdiv_eq_ediv c (by norm_num)
  simp only [specBucket, hdiv]
  split_ifs with h2 h3 h4 h5
  · exact absurd hc (by omega)
  · exact absurd hc (by omega)
  · exact absurd hc (by omega)
  · exact absurd hc (by omega)
  · rfl

/-- Claim C4 (witness): a 700 status code is outside 100–599 and lands in the
unreachable bucket. -/
theorem parseLink_bucket_classification_w :
    specBucket (some 700) = StatusBucket.unreachable :=
  (parseLink_bucket_classification initResult
      { is_origin := false, link_passed := true, status_code := some 700,
        link_url := "https://example.com/0" }).2.2.2.2.2.2
    700 (Or.inr (by norm_num))

/-- Claim C5: for every input sequence the aggregated report satisfies
`link_count = passing_link_count + failing_link_count`, where the passing
count is exactly the number of links with `link_passed` set, the failing count
the number without, and `link_count` the number of processed links. -/
theorem parseFollowedLinks_count_invariant (links : List SyntheticLinkResult) :
    (parseFollowedLinks links).link_count
      = (parseFollowedLinks links).passing_link_count
        + (parseFollowedLinks links).failing_link_count
  ∧ (parseFollowedLinks links).passing_link_count
      = List.countP (fun l => l.link_passed) links
  ∧ (parseFollowedLinks links).failing_link_count
      = List.countP (fun l => !l.link_passed) links
  ∧ (parseFollowedLinks links).link_count = links.length := by
  obtain ⟨h1, h2, h3, _, _⟩ := parse_foldl_spec links initResult
  have hz : initResult.link_count = 0 ∧ initResult.passing_link_count = 0
      ∧ initResult.failing_link_count = 0 := ⟨rfl, rfl, rfl⟩
  have hsum : List.countP (fun l => l.link_passed) links
      + List.countP (fun l => !l.link_passed) links = links.length := by
    simpa using (List.length_eq_countP_add_countP (fun l => l.link_passed)
      (l := links)).symm
  refine ⟨?_, ?_, ?_, ?_⟩ <;>
    simp only [parseFollowedLinks, h1, h2, h3, hz.1, hz.2.1, hz.2.2] <;>
    omega

/-- Claim C8: aggregation routes by the `is_origin` flag —
`followed_link_results` is exactly the subsequence of inputs with `is_origin`
false, in input order, and `origin_link_result` is the last input with
`is_origin` true, or the empty placeholder (modelled as `none`) when no input
carries the flag. -/
theorem parseFollowedLinks_routing (links : List SyntheticLinkResult) :
    (parseFollowedLinks links).followed_link_results
      = List.filter (fun l => !l.is_origin) links
  ∧ (parseFollowedLinks links).origin_link_result = lastOrigin links
  ∧ ((lastOrigin links).isNone
      = List.all links (fun l => !l.is_origin)) := by
  obtain ⟨_, _, _, h4, h5⟩ := parse_foldl_spec links initResult
  refine ⟨?_, ?_, ?_⟩
  · simpa [parseFollowedLinks, initResult] using h4
  · rw [parseFollowedLinks, h5]
    cases h : lastOrigin links <;> simp [initResult]
  · rw [Bool.eq_iff_iff]
    simp only [Option.isNone_iff_eq_none, lastOrigin, List.find?_eq_none,
      List.all_eq_true, List.mem_reverse]
    constructor
    · intro hf l hl
      simpa using hf l hl
    · intro hf l hl
      simpa using hf l hl

end LinkUtils
